import Mathlib

/-!
# Collatz step counters (`10_Tools/collatz.c`, `10_Tools/collatz2.c`) and `6_Optimization/test.c`

Shallow embedding of the two step counters, their drivers, and the loop of
`powern`.  `unsigned int` is 32 bits wide:
a value is a natural number below `UINT_RANGE`, and every arithmetic
operation of the source that can exceed the range is reduced modulo
`UINT_RANGE` at the place where C reduces it.

The `while` loops are modelled with a fuel argument that bounds the number
of evaluations of the loop condition: `none` means that the fuel ran out
before the loop was left.
-/

/-- Number of values of a 32-bit `unsigned int` (`UINT_MAX + 1`). -/
def UINT_RANGE : Nat := 4294967296

/-! ## Variant A: `collatz.c` -/

namespace Collatz

/-- The function `step` of `collatz.c`: `(x % 2 == 0) ? x / 2 : 3 * x + 1`, where the product
and the sum are each reduced modulo `UINT_RANGE`. -/
def step (x : Nat) : Nat :=
  if x % 2 = 0 then x / 2 else ((3 * x) % UINT_RANGE + 1) % UINT_RANGE

/-- The loop `while (x != 1 && x != 0) { x = step(x); i++; }` followed by
`return i;`.  The counter `i` is an `unsigned int`, so `i++` wraps. -/
def stepnLoop : Nat → Nat → Nat → Option Nat
  | 0, _, _ => none
  | fuel + 1, x, i =>
    if x ≠ 1 ∧ x ≠ 0 then stepnLoop fuel (step x) ((i + 1) % UINT_RANGE) else some i

/-- The function `stepn` of `collatz.c`: `i = 1`, early return when `x0` is `0` or `1`,
otherwise `x = step(x0)` and the loop. -/
def stepn (fuel : Nat) (x0 : Nat) : Option Nat :=
  if x0 = 0 ∨ x0 = 1 then some 1 else stepnLoop fuel (step x0) 1

/-- Instrumented copy of `stepnLoop`: the extra component `c` counts the calls
of `step` (it is a mathematical counter and does not wrap). -/
def stepnLoopCalls : Nat → Nat → Nat → Nat → Option (Nat × Nat)
  | 0, _, _, _ => none
  | fuel + 1, x, i, c =>
    if x ≠ 1 ∧ x ≠ 0 then stepnLoopCalls fuel (step x) ((i + 1) % UINT_RANGE) (c + 1)
    else some (i, c)

/-- Instrumented copy of `stepn`: returns the result together with the number
of calls of `step` made on the way. -/
def stepnCalls (fuel : Nat) (x0 : Nat) : Option (Nat × Nat) :=
  if x0 = 0 ∨ x0 = 1 then some (1, 0) else stepnLoopCalls fuel (step x0) 1 1

end Collatz

/-! ## Variant B: `collatz2.c` -/

namespace Collatz2

/-- The function `step` of `collatz2.c` (textually the same function as in `collatz.c`). -/
def step (x : Nat) : Nat :=
  if x % 2 = 0 then x / 2 else ((3 * x) % UINT_RANGE + 1) % UINT_RANGE

/-- The loop `while (x != 1) { x = step(x); i++; }` followed by `return i;`. -/
def stepnLoop : Nat → Nat → Nat → Option Nat
  | 0, _, _ => none
  | fuel + 1, x, i =>
    if x ≠ 1 then stepnLoop fuel (step x) ((i + 1) % UINT_RANGE) else some i

/-- The function `stepn` of `collatz2.c`: `i = 1`, `x = step(x0)` and the loop; there is no
early return. -/
def stepn (fuel : Nat) (x0 : Nat) : Option Nat :=
  stepnLoop fuel (step x0) 1

end Collatz2

/-! ## Output lines of the drivers -/

/-- Value that `%d` shows for an `unsigned int` argument: the same 32 bits read
as a two's complement `int`. -/
def asInt (n : Nat) : Int :=
  if n % UINT_RANGE < 2147483648 then (n % UINT_RANGE : Nat)
  else ((n % UINT_RANGE : Nat) : Int) - 4294967296

/-- The text written by `printf("%d\tn = %d\n", k, n)`. -/
def printfLine (k : Int) (n : Nat) : String :=
  toString k ++ "\tn = " ++ toString (asInt n) ++ "\n"

namespace Collatz2

/-- The two lines that `main` of `collatz2.c` prints before its loop:
`printf("0\tn = 1\n"); printf("1\tn = 1\n");`. -/
def mainHardcoded : List String := ["0\tn = 1\n", "1\tn = 1\n"]

end Collatz2

/-! ## The drivers

A run of `main` is described by the lines written to standard output and a
flag that tells whether `main` returned.  The first fuel argument is the fuel
given to every call of `stepn`, the second bounds the number of tests of the
`for` loop; when either runs out the run stops with the lines written so far
and the flag `false`. -/

/-- Conversion of the `int` argument `k` to the `unsigned int` parameter of
`stepn`: reduction modulo `2^32`. -/
def toUnsigned (k : Int) : Nat := (k % 4294967296).toNat

namespace Collatz

/-- The loop `for (int k = 0; k < 500; k++) { n = stepn(k); printf(...); }` of
`main` in `collatz.c`, entered with the current value of `k`. -/
def mainLoop (fuel : Nat) : Nat → Int → List String × Bool
  | 0, _ => ([], false)
  | outer + 1, k =>
    if k < 500 then
      match stepn fuel (toUnsigned k) with
      | none => ([], false)
      | some n =>
        let rest := mainLoop fuel outer (k + 1)
        (printfLine k n :: rest.1, rest.2)
    else ([], true)

/-- The function `main` of `collatz.c`: the loop, started at `k = 0`. -/
def main (fuel outer : Nat) : List String × Bool := mainLoop fuel outer 0

end Collatz

namespace Collatz2

/-- The loop `for (int k = 2; k < 5000000; k++) { n = stepn(k); printf(...); }`
of `main` in `collatz2.c`, entered with the current value of `k`. -/
def mainLoop (fuel : Nat) : Nat → Int → List String × Bool
  | 0, _ => ([], false)
  | outer + 1, k =>
    if k < 5000000 then
      match stepn fuel (toUnsigned k) with
      | none => ([], false)
      | some n =>
        let rest := mainLoop fuel outer (k + 1)
        (printfLine k n :: rest.1, rest.2)
    else ([], true)

/-- The function `main` of `collatz2.c`: the two hardcoded lines, then the
loop started at `k = 2`. -/
def main (fuel outer : Nat) : List String × Bool :=
  let rest := mainLoop fuel outer 2
  (mainHardcoded ++ rest.1, rest.2)

end Collatz2

/-! ## The mathematical Collatz map -/

/-- The Collatz map on the natural numbers, without any bound on the values:
`x / 2` for even `x` and `3 * x + 1` for odd `x`.  This is the reference that the
machine `step` is compared with; it is not taken from the source. -/
def collatzMap (x : Nat) : Nat := if x % 2 = 0 then x / 2 else 3 * x + 1

/-! ## `6_Optimization/test.c` -/

namespace Test

/-- The loop `for (unsigned i = 1; i <= n; i++) x *= d;` of `powern`, followed by
`return x;`, entered with the current values of `i` and `x`.  The type `α` stands
for `double` and `mul` for its multiplication, which the loop treats as a black
box; the counter `i` is an `unsigned`, so `i++` wraps. -/
def powernLoop {α : Type} (mul : α → α → α) (d : α) (n : Nat) : Nat → Nat → α → Option α
  | 0, _, _ => none
  | fuel + 1, i, x =>
    if i ≤ n then powernLoop mul d n fuel ((i + 1) % UINT_RANGE) (mul x d) else some x

/-- The function `powern` of `test.c`: `x = 1.0`, then the loop from `i = 1`;
`one` stands for the constant `1.0`. -/
def powern {α : Type} (mul : α → α → α) (one : α) (fuel : Nat) (d : α) (n : Nat) : Option α :=
  powernLoop mul d n fuel 1 one

end Test

/-! ## A generic counting loop, used to reason about both variants at once -/

/-- Counting loop with an arbitrary exit test `stop` and body `f`. -/
def countLoop (stop : Nat → Bool) (f : Nat → Nat) : Nat → Nat → Nat → Option Nat
  | 0, _, _ => none
  | fuel + 1, x, i =>
    if stop x then some i else countLoop stop f fuel (f x) ((i + 1) % UINT_RANGE)

/-! ## Basic facts about `step` -/

theorem Collatz2.step_eq : Collatz2.step = Collatz.step := rfl

theorem Collatz.step_even (x : Nat) (h : x % 2 = 0) : Collatz.step x = x / 2 := by
  simp [Collatz.step, h]

theorem Collatz.step_odd (x : Nat) (h : x % 2 = 1) :
    Collatz.step x = (3 * x + 1) % UINT_RANGE := by
  have h2 : ¬ x % 2 = 0 := by omega
  simp only [Collatz.step, h2, if_false, UINT_RANGE]
  omega

theorem Collatz.step_lt (x : Nat) (h : x < UINT_RANGE) : Collatz.step x < UINT_RANGE := by
  unfold Collatz.step
  split
  · exact lt_of_le_of_lt (Nat.div_le_self x 2) h
  · exact Nat.mod_lt _ (by decide)

theorem Collatz.step_zero : Collatz.step 0 = 0 := by decide

theorem Collatz.iterate_step_lt (x : Nat) (h : x < UINT_RANGE) (n : Nat) :
    Collatz.step^[n] x < UINT_RANGE := by
  induction n generalizing x with
  | zero => simpa using h
  | succ n ih =>
    rw [Function.iterate_succ_apply]
    exact ih _ (Collatz.step_lt x h)

theorem Collatz.iterate_step_zero (n : Nat) : Collatz.step^[n] 0 = 0 := by
  induction n with
  | zero => rfl
  | succ n ih => rw [Function.iterate_succ_apply, Collatz.step_zero, ih]

/-- Once the trajectory is at `0` it stays there. -/
theorem Collatz.iterate_step_eq_zero_of_le (x : Nat) (j n : Nat) (hjn : j ≤ n)
    (h : Collatz.step^[j] x = 0) : Collatz.step^[n] x = 0 := by
  obtain ⟨d, rfl⟩ := Nat.exists_eq_add_of_le hjn
  rw [Nat.add_comm, Function.iterate_add_apply, h, Collatz.iterate_step_zero]

/-! ## The generic counting loop -/

theorem Collatz.stepnLoop_eq_countLoop (fuel x i : Nat) :
    Collatz.stepnLoop fuel x i
      = countLoop (fun y => decide (y = 1 ∨ y = 0)) Collatz.step fuel x i := by
  induction fuel generalizing x i with
  | zero => rfl
  | succ fuel ih =>
    simp only [Collatz.stepnLoop, countLoop, ih]
    by_cases h : x = 1 ∨ x = 0
    · have h2 : ¬ (x ≠ 1 ∧ x ≠ 0) := by tauto
      rw [if_neg h2, if_pos (by simpa using h)]
    · have h2 : x ≠ 1 ∧ x ≠ 0 := by tauto
      rw [if_pos h2, if_neg (by simpa using h)]

theorem Collatz2.loopB_eq_countLoop (fuel x i : Nat) :
    Collatz2.stepnLoop fuel x i
      = countLoop (fun y => decide (y = 1)) Collatz.step fuel x i := by
  induction fuel generalizing x i with
  | zero => rfl
  | succ fuel ih =>
    simp only [Collatz2.stepnLoop, countLoop, ih, Collatz2.step_eq]
    by_cases h : x = 1
    · rw [if_neg (by simpa using h), if_pos (by simpa using h)]
    · rw [if_pos h, if_neg (by simpa using h)]

/-- What the counting loop returns: the loop is left at the first value of the
trajectory that passes the exit test, and the counter has been incremented
(with wraparound) once per value that failed it. -/
theorem countLoop_eq_some_iff (stop : Nat → Bool) (f : Nat → Nat) (fuel x i r : Nat)
    (hi : i < UINT_RANGE) :
    countLoop stop f fuel x i = some r ↔
      ∃ k, k < fuel ∧ stop (f^[k] x) = true ∧ (∀ j, j < k → stop (f^[j] x) = false) ∧
        r = (i + k) % UINT_RANGE := by
  induction fuel generalizing x i with
  | zero => simp [countLoop]
  | succ fuel ih =>
    by_cases hs : stop x = true
    · simp only [countLoop, hs, if_true, Option.some.injEq]
      constructor
      · intro h
        exact ⟨0, Nat.succ_pos _, by simpa using hs, by simp,
          by simp [← h, Nat.mod_eq_of_lt hi]⟩
      · rintro ⟨k, _, _, hk, hr⟩
        have hk0 : k = 0 := by
          by_contra hne
          have := hk 0 (Nat.pos_of_ne_zero hne)
          simp [hs] at this
        subst hk0
        simp [hr, Nat.mod_eq_of_lt hi]
    · have hs' : stop x = false := by simpa using hs
      simp only [countLoop, hs', Bool.false_eq_true, if_false]
      rw [ih (f x) ((i + 1) % UINT_RANGE) (Nat.mod_lt _ (by decide))]
      constructor
      · rintro ⟨k, hk, hstop, hbefore, hr⟩
        refine ⟨k + 1, Nat.succ_lt_succ hk, ?_, ?_, ?_⟩
        · simpa [Function.iterate_succ_apply] using hstop
        · intro j hj
          cases j with
          | zero => simpa using hs'
          | succ j =>
            simpa [Function.iterate_succ_apply] using hbefore j (Nat.lt_of_succ_lt_succ hj)
        · rw [hr]
          simp only [UINT_RANGE]
          omega
      · rintro ⟨k, hk, hstop, hbefore, hr⟩
        cases k with
        | zero =>
          simp [hs'] at hstop
        | succ k =>
          refine ⟨k, Nat.lt_of_succ_lt_succ hk, ?_, ?_, ?_⟩
          · simpa [Function.iterate_succ_apply] using hstop
          · intro j hj
            simpa [Function.iterate_succ_apply] using hbefore (j + 1) (Nat.succ_lt_succ hj)
          · rw [hr]
            simp only [UINT_RANGE]
            omega

/-- Pigeonhole bound: if the first `m` values of a trajectory inside `[0, N)` all
lie in `[2, N)` and the trajectory then reaches a value it has not visited
before, the `m` values are pairwise distinct, so `m ≤ N - 2`. -/
theorem iterate_prefix_le (f : Nat → Nat) (N x m : Nat)
    (hrange : ∀ j, j < m → 2 ≤ f^[j] x ∧ f^[j] x < N)
    (hfresh : ∀ j, j < m → f^[j] x ≠ f^[m] x) :
    m ≤ N - 2 := by
  have hinj : Set.InjOn (fun j => f^[j] x) (Finset.range m : Set Nat) := by
    intro a ha b hb hab
    simp only [Finset.coe_range, Set.mem_Iio] at ha hb
    simp only at hab
    by_contra hne
    rcases Nat.lt_or_gt_of_ne hne with hlt | hlt
    · -- a < b < m
      have key : f^[a + (m - b)] x = f^[m] x := by
        have e1 : f^[a + (m - b)] x = f^[m - b] (f^[a] x) := by
          rw [Nat.add_comm, Function.iterate_add_apply]
        have e2 : f^[m] x = f^[m - b] (f^[b] x) := by
          rw [← Function.iterate_add_apply]
          congr 1
          omega
        rw [e1, e2, hab]
      exact hfresh (a + (m - b)) (by omega) key
    · have key : f^[b + (m - a)] x = f^[m] x := by
        have e1 : f^[b + (m - a)] x = f^[m - a] (f^[b] x) := by
          rw [Nat.add_comm, Function.iterate_add_apply]
        have e2 : f^[m] x = f^[m - a] (f^[a] x) := by
          rw [← Function.iterate_add_apply]
          congr 1
          omega
        rw [e1, e2, hab]
      exact hfresh (b + (m - a)) (by omega) key
  have hmaps : ∀ j ∈ Finset.range m, (fun j => f^[j] x) j ∈ Finset.Ico 2 N := by
    intro j hj
    have := hrange j (Finset.mem_range.mp hj)
    simp only [Finset.mem_Ico]
    exact this
  have hcard := Finset.card_le_card_of_injOn (fun j => f^[j] x) hmaps hinj
  simpa using hcard

/-! ## What the two `stepn` return -/

/-- A trajectory that starts below `UINT_RANGE`, stays at values `≥ 2` for `k`
steps and is then at `0` or `1` has `k + 1 < UINT_RANGE`: the counter of the
loop cannot wrap before the loop is left. -/
theorem Collatz.exit_index_lt (x k : Nat) (hx : x < UINT_RANGE)
    (hk : Collatz.step^[k] x ≤ 1) (hbefore : ∀ j, j < k → 2 ≤ Collatz.step^[j] x) :
    k + 1 < UINT_RANGE := by
  have hle : k ≤ UINT_RANGE - 2 := by
    apply iterate_prefix_le Collatz.step UINT_RANGE x k
    · intro j hj
      exact ⟨hbefore j hj, Collatz.iterate_step_lt x hx j⟩
    · intro j hj heq
      have := hbefore j hj
      omega
  simp only [UINT_RANGE] at hle ⊢
  omega

/-- Variant A, with the fuel made explicit: `stepn` returns `n` exactly when `n`
loop tests fit in the fuel and `n` is the first positive index at which the
trajectory of `x0` is at `1` or `0`. -/
theorem Collatz.stepn_eq_some_iff (fuel x0 n : Nat) (h2 : 2 ≤ x0) (hx : x0 < UINT_RANGE) :
    Collatz.stepn fuel x0 = some n ↔
      n ≤ fuel ∧ 1 ≤ n ∧ (Collatz.step^[n] x0 = 1 ∨ Collatz.step^[n] x0 = 0) ∧
        ∀ j, 1 ≤ j → j < n → ¬ (Collatz.step^[j] x0 = 1 ∨ Collatz.step^[j] x0 = 0) := by
  have h01 : ¬ (x0 = 0 ∨ x0 = 1) := by omega
  have hsx : Collatz.step x0 < UINT_RANGE := Collatz.step_lt x0 hx
  rw [Collatz.stepn, if_neg h01, Collatz.stepnLoop_eq_countLoop,
    countLoop_eq_some_iff _ _ _ _ _ _ (by decide)]
  simp only [decide_eq_true_eq, decide_eq_false_iff_not]
  constructor
  · rintro ⟨k, hk, hstop, hbefore, hr⟩
    have hlt : k + 1 < UINT_RANGE := by
      apply Collatz.exit_index_lt (Collatz.step x0) k hsx
      · rcases hstop with h | h <;> omega
      · intro j hj
        have := hbefore j hj
        omega
    have hn : n = k + 1 := by
      rw [hr, Nat.add_comm, Nat.mod_eq_of_lt hlt]
    subst hn
    refine ⟨hk, Nat.succ_pos _, ?_, ?_⟩
    · simpa [Function.iterate_succ_apply] using hstop
    · intro j hj1 hjn
      obtain ⟨j, rfl⟩ := Nat.exists_eq_succ_of_ne_zero (Nat.pos_iff_ne_zero.mp hj1)
      simpa [Function.iterate_succ_apply] using hbefore j (Nat.lt_of_succ_lt_succ hjn)
  · rintro ⟨hfuel, hn1, hstop, hbefore⟩
    obtain ⟨k, rfl⟩ := Nat.exists_eq_succ_of_ne_zero (Nat.pos_iff_ne_zero.mp hn1)
    have hstop' : Collatz.step^[k] (Collatz.step x0) = 1 ∨
        Collatz.step^[k] (Collatz.step x0) = 0 := by
      simpa [Function.iterate_succ_apply] using hstop
    have hbefore' : ∀ j, j < k → ¬ (Collatz.step^[j] (Collatz.step x0) = 1 ∨
        Collatz.step^[j] (Collatz.step x0) = 0) := by
      intro j hj
      simpa [Function.iterate_succ_apply] using
        hbefore (j + 1) (Nat.succ_pos _) (Nat.succ_lt_succ hj)
    have hlt : k + 1 < UINT_RANGE := by
      apply Collatz.exit_index_lt (Collatz.step x0) k hsx
      · rcases hstop' with h | h <;> omega
      · intro j hj
        have := hbefore' j hj
        omega
    refine ⟨k, hfuel, hstop', hbefore', ?_⟩
    rw [Nat.add_comm 1 k, Nat.mod_eq_of_lt hlt]

/-- Variant B, with the fuel made explicit: `stepn` returns `n` exactly when `n`
loop tests fit in the fuel and `n` is the first positive index at which the
trajectory of `x0` is at `1`. -/
theorem Collatz2.stepnB_eq_some_iff (fuel x0 n : Nat) (hx : x0 < UINT_RANGE) :
    Collatz2.stepn fuel x0 = some n ↔
      n ≤ fuel ∧ 1 ≤ n ∧ Collatz.step^[n] x0 = 1 ∧
        ∀ j, 1 ≤ j → j < n → Collatz.step^[j] x0 ≠ 1 := by
  have hsx : Collatz.step x0 < UINT_RANGE := Collatz.step_lt x0 hx
  have hbound : ∀ k, Collatz.step^[k] (Collatz.step x0) = 1 →
      (∀ j, j < k → Collatz.step^[j] (Collatz.step x0) ≠ 1) → k + 1 < UINT_RANGE := by
    intro k hstop hbefore
    apply Collatz.exit_index_lt (Collatz.step x0) k hsx
    · omega
    · intro j hj
      have h1 := hbefore j hj
      have h0 : Collatz.step^[j] (Collatz.step x0) ≠ 0 := by
        intro h0
        have := Collatz.iterate_step_eq_zero_of_le (Collatz.step x0) j k (Nat.le_of_lt hj) h0
        omega
      omega
  rw [Collatz2.stepn, Collatz2.loopB_eq_countLoop, Collatz2.step_eq,
    countLoop_eq_some_iff _ _ _ _ _ _ (by decide)]
  simp only [decide_eq_true_eq, decide_eq_false_iff_not]
  constructor
  · rintro ⟨k, hk, hstop, hbefore, hr⟩
    have hlt : k + 1 < UINT_RANGE := hbound k hstop hbefore
    have hn : n = k + 1 := by
      rw [hr, Nat.add_comm, Nat.mod_eq_of_lt hlt]
    subst hn
    refine ⟨hk, Nat.succ_pos _, ?_, ?_⟩
    · simpa [Function.iterate_succ_apply] using hstop
    · intro j hj1 hjn
      obtain ⟨j, rfl⟩ := Nat.exists_eq_succ_of_ne_zero (Nat.pos_iff_ne_zero.mp hj1)
      simpa [Function.iterate_succ_apply] using hbefore j (Nat.lt_of_succ_lt_succ hjn)
  · rintro ⟨hfuel, hn1, hstop, hbefore⟩
    obtain ⟨k, rfl⟩ := Nat.exists_eq_succ_of_ne_zero (Nat.pos_iff_ne_zero.mp hn1)
    have hstop' : Collatz.step^[k] (Collatz.step x0) = 1 := by
      simpa [Function.iterate_succ_apply] using hstop
    have hbefore' : ∀ j, j < k → Collatz.step^[j] (Collatz.step x0) ≠ 1 := by
      intro j hj
      simpa [Function.iterate_succ_apply] using
        hbefore (j + 1) (Nat.succ_pos _) (Nat.succ_lt_succ hj)
    refine ⟨k, hfuel, hstop', hbefore', ?_⟩
    rw [Nat.add_comm 1 k, Nat.mod_eq_of_lt (hbound k hstop' hbefore')]

/-- Variant A: the result does not depend on the fuel beyond "enough of it". -/
theorem Collatz.stepn_fuel (x0 n f0 : Nat) (h2 : 2 ≤ x0) (hx : x0 < UINT_RANGE)
    (h : Collatz.stepn f0 x0 = some n) (fuel : Nat) :
    Collatz.stepn fuel x0 = if n ≤ fuel then some n else none := by
  obtain ⟨_, hn1, hstop, hbefore⟩ := (Collatz.stepn_eq_some_iff f0 x0 n h2 hx).mp h
  by_cases hle : n ≤ fuel
  · rw [if_pos hle]
    exact (Collatz.stepn_eq_some_iff fuel x0 n h2 hx).mpr ⟨hle, hn1, hstop, hbefore⟩
  · rw [if_neg hle, Option.eq_none_iff_forall_not_mem]
    intro m hm
    obtain ⟨hm1, hm2, hm3, _⟩ := (Collatz.stepn_eq_some_iff fuel x0 m h2 hx).mp hm
    exact hbefore m hm2 (by omega) hm3

/-- Variant B: the result does not depend on the fuel beyond "enough of it". -/
theorem Collatz2.stepnB_fuel (x0 n f0 : Nat) (hx : x0 < UINT_RANGE)
    (h : Collatz2.stepn f0 x0 = some n) (fuel : Nat) :
    Collatz2.stepn fuel x0 = if n ≤ fuel then some n else none := by
  obtain ⟨_, hn1, hstop, hbefore⟩ := (Collatz2.stepnB_eq_some_iff f0 x0 n hx).mp h
  by_cases hle : n ≤ fuel
  · rw [if_pos hle]
    exact (Collatz2.stepnB_eq_some_iff fuel x0 n hx).mpr ⟨hle, hn1, hstop, hbefore⟩
  · rw [if_neg hle, Option.eq_none_iff_forall_not_mem]
    intro m hm
    obtain ⟨hm1, hm2, hm3, _⟩ := (Collatz2.stepnB_eq_some_iff fuel x0 m hx).mp hm
    exact hbefore m hm2 (by omega) hm3

/-- From `1` the trajectory runs through the cycle `1, 4, 2`. -/
theorem Collatz.iterate_step_one (d : Nat) :
    Collatz.step^[d] 1 = 1 ∨ Collatz.step^[d] 1 = 4 ∨ Collatz.step^[d] 1 = 2 := by
  induction d with
  | zero => exact Or.inl rfl
  | succ d ih =>
    rw [Function.iterate_succ_apply']
    rcases ih with h | h | h <;> rw [h]
    · exact Or.inr (Or.inl (by decide))
    · exact Or.inr (Or.inr (by decide))
    · exact Or.inl (by decide)

/-- A trajectory that reaches `1` is never at `0`. -/
theorem Collatz.iterate_step_ne_zero (x r : Nat) (h : Collatz.step^[r] x = 1) (j : Nat) :
    Collatz.step^[j] x ≠ 0 := by
  intro h0
  rcases Nat.le_total j r with hjr | hrj
  · have := Collatz.iterate_step_eq_zero_of_le x j r hjr h0
    omega
  · obtain ⟨d, rfl⟩ := Nat.exists_eq_add_of_le hrj
    rw [Nat.add_comm, Function.iterate_add_apply, h] at h0
    rcases Collatz.iterate_step_one d with h1 | h1 | h1 <;> omega

/-- Variant B's loop is never left once `x` is `0`. -/
theorem Collatz2.stepnLoop_zero (fuel i : Nat) : Collatz2.stepnLoop fuel 0 i = none := by
  induction fuel generalizing i with
  | zero => rfl
  | succ fuel ih =>
    have hs : Collatz2.step 0 = 0 := by decide
    simp only [Collatz2.stepnLoop, ne_eq, zero_ne_one, not_false_eq_true, if_true, hs, ih]

/-- The instrumented loop computes the same result as `stepnLoop`. -/
theorem Collatz.stepnLoopCalls_fst (fuel x i c : Nat) :
    (Collatz.stepnLoopCalls fuel x i c).map Prod.fst = Collatz.stepnLoop fuel x i := by
  induction fuel generalizing x i c with
  | zero => rfl
  | succ fuel ih =>
    simp only [Collatz.stepnLoopCalls, Collatz.stepnLoop]
    split
    · exact ih _ _ _
    · rfl

/-- The instrumented `stepnCalls` computes the same result as `stepn`. -/
theorem Collatz.stepnCalls_fst (fuel x0 : Nat) :
    (Collatz.stepnCalls fuel x0).map Prod.fst = Collatz.stepn fuel x0 := by
  simp only [Collatz.stepnCalls, Collatz.stepn]
  split
  · rfl
  · exact Collatz.stepnLoopCalls_fst _ _ _ _

/-- The instrumented loop, when the trajectory of `x` first passes the exit
test at index `k`: the counter has advanced by `k` (with wraparound) and `step`
has been called `k` more times. -/
theorem Collatz.stepnLoopCalls_of_exit (fuel x i c k : Nat) (hi : i < UINT_RANGE)
    (hk : k < fuel) (hstop : Collatz.step^[k] x = 1 ∨ Collatz.step^[k] x = 0)
    (hbefore : ∀ j, j < k → ¬ (Collatz.step^[j] x = 1 ∨ Collatz.step^[j] x = 0)) :
    Collatz.stepnLoopCalls fuel x i c = some ((i + k) % UINT_RANGE, c + k) := by
  induction fuel generalizing x i c k with
  | zero => omega
  | succ fuel ih =>
    cases k with
    | zero =>
      have hx : ¬ (x ≠ 1 ∧ x ≠ 0) := by
        simp only [Function.iterate_zero, id_eq] at hstop
        tauto
      simp only [Collatz.stepnLoopCalls, if_neg hx, Nat.add_zero, Nat.mod_eq_of_lt hi]
    | succ k =>
      have hx : x ≠ 1 ∧ x ≠ 0 := by
        have := hbefore 0 (Nat.succ_pos _)
        simp only [Function.iterate_zero, id_eq] at this
        tauto
      have hstop' : Collatz.step^[k] (Collatz.step x) = 1 ∨
          Collatz.step^[k] (Collatz.step x) = 0 := by
        simpa [Function.iterate_succ_apply] using hstop
      have hbefore' : ∀ j, j < k → ¬ (Collatz.step^[j] (Collatz.step x) = 1 ∨
          Collatz.step^[j] (Collatz.step x) = 0) := by
        intro j hj
        simpa [Function.iterate_succ_apply] using hbefore (j + 1) (Nat.succ_lt_succ hj)
      simp only [Collatz.stepnLoopCalls, if_pos hx]
      rw [ih (Collatz.step x) ((i + 1) % UINT_RANGE) (c + 1) k (Nat.mod_lt _ (by decide))
        (Nat.lt_of_succ_lt_succ hk) hstop' hbefore']
      simp only [UINT_RANGE, Option.some.injEq, Prod.mk.injEq]
      omega

/-- Variant A: when `stepn` returns `n`, the instrumented run returns `n` as
well and has called `step` exactly `n` times. -/
theorem Collatz.stepnCalls_of_stepn (fuel x0 n : Nat) (h2 : 2 ≤ x0) (hx : x0 < UINT_RANGE)
    (h : Collatz.stepn fuel x0 = some n) : Collatz.stepnCalls fuel x0 = some (n, n) := by
  obtain ⟨hfuel, hn1, hstop, hbefore⟩ := (Collatz.stepn_eq_some_iff fuel x0 n h2 hx).mp h
  obtain ⟨k, rfl⟩ := Nat.exists_eq_succ_of_ne_zero (Nat.pos_iff_ne_zero.mp hn1)
  have h01 : ¬ (x0 = 0 ∨ x0 = 1) := by omega
  have hsx : Collatz.step x0 < UINT_RANGE := Collatz.step_lt x0 hx
  have hstop' : Collatz.step^[k] (Collatz.step x0) = 1 ∨
      Collatz.step^[k] (Collatz.step x0) = 0 := by
    simpa [Function.iterate_succ_apply] using hstop
  have hbefore' : ∀ j, j < k → ¬ (Collatz.step^[j] (Collatz.step x0) = 1 ∨
      Collatz.step^[j] (Collatz.step x0) = 0) := by
    intro j hj
    simpa [Function.iterate_succ_apply] using
      hbefore (j + 1) (Nat.succ_pos _) (Nat.succ_lt_succ hj)
  have hlt : k + 1 < UINT_RANGE := by
    apply Collatz.exit_index_lt (Collatz.step x0) k hsx
    · rcases hstop' with h | h <;> omega
    · intro j hj
      have := hbefore' j hj
      omega
  rw [Collatz.stepnCalls, if_neg h01,
    Collatz.stepnLoopCalls_of_exit fuel (Collatz.step x0) 1 1 k (by decide) hfuel hstop' hbefore',
    Nat.add_comm 1 k, Nat.mod_eq_of_lt hlt]

/-! ## Variant B against Variant A, and both against the Collatz map -/

/-- When Variant B returns `n` on `x0 ≥ 2`, so does Variant A with the same fuel. -/
theorem Collatz.stepn_of_stepnB (fuel x0 n : Nat) (h2 : 2 ≤ x0) (hx : x0 < UINT_RANGE)
    (h : Collatz2.stepn fuel x0 = some n) : Collatz.stepn fuel x0 = some n := by
  obtain ⟨hf, hn, hstop, hbefore⟩ := (Collatz2.stepnB_eq_some_iff fuel x0 n hx).mp h
  rw [Collatz.stepn_eq_some_iff fuel x0 n h2 hx]
  refine ⟨hf, hn, Or.inl hstop, ?_⟩
  intro j hj1 hjn hj
  rcases hj with hj | hj
  · exact hbefore j hj1 hjn hj
  · exact Collatz.iterate_step_ne_zero x0 n hstop j hj

/-- The machine `step` is the Collatz map wherever the latter stays in range. -/
theorem Collatz.step_eq_collatzMap (x : Nat) (h : collatzMap x < UINT_RANGE) :
    Collatz.step x = collatzMap x := by
  unfold collatzMap at h
  unfold Collatz.step collatzMap
  split
  · rfl
  · rename_i hodd
    rw [if_neg hodd] at h
    simp only [UINT_RANGE] at h ⊢
    omega

/-- The machine trajectory is the mathematical one as long as the latter stays
in range. -/
theorem Collatz.iterate_step_eq_collatzMap (x0 n : Nat)
    (hbound : ∀ j, j ≤ n → collatzMap^[j] x0 < UINT_RANGE) (j : Nat) (hj : j ≤ n) :
    Collatz.step^[j] x0 = collatzMap^[j] x0 := by
  induction j with
  | zero => rfl
  | succ j ih =>
    have hb := hbound (j + 1) hj
    rw [Function.iterate_succ_apply'] at hb ⊢
    rw [Function.iterate_succ_apply', ih (Nat.le_of_succ_le hj)]
    exact Collatz.step_eq_collatzMap _ hb

/-- An odd-branch result of `0` pins the argument: `3 * y + 1` must be `2^32`. -/
theorem Collatz.eq_of_wrap_to_zero (y : Nat) (hy : y < 4294967296)
    (h1 : (3 * y % 4294967296 + 1) % 4294967296 = 0) : y = 1431655765 := by
  have hq : 3 * y / 4294967296 < 3 := by
    clear h1
    omega
  have hr : 3 * y % 4294967296 < 4294967296 := Nat.mod_lt _ (by decide)
  have hr1 : 3 * y % 4294967296 + 1 = 4294967296 := by
    generalize 3 * y % 4294967296 = r at h1 hr
    rcases Nat.lt_or_ge (r + 1) 4294967296 with hlt | hge
    · rw [Nat.mod_eq_of_lt hlt] at h1
      omega
    · clear h1
      omega
  clear h1
  have hdm := Nat.div_add_mod (3 * y) 4294967296
  generalize 3 * y % 4294967296 = r at hdm hr hr1
  generalize 3 * y / 4294967296 = q at hdm hq
  interval_cases q <;> omega

/-- The arguments that `step` sends to `0`. -/
theorem Collatz.step_eq_zero_cases (y : Nat) (hy : y < UINT_RANGE) :
    Collatz.step y = 0 ↔ y = 0 ∨ y = 1431655765 := by
  unfold Collatz.step
  simp only [UINT_RANGE] at hy ⊢
  by_cases h : y % 2 = 0
  · rw [if_pos h]
    constructor
    · intro h1
      left
      omega
    · rintro (h1 | h1)
      · subst h1
        rfl
      · subst h1
        exact absurd h (by decide)
  · rw [if_neg h]
    constructor
    · intro h1
      exact Or.inr (Collatz.eq_of_wrap_to_zero y hy h1)
    · rintro (h1 | h1)
      · subst h1
        exact absurd rfl h
      · subst h1
        decide

/-! ## The loop of `powern` -/

/-- The loop of `powern` for `n + 1 < UINT_RANGE`, entered with `i ≤ n + 1`: it
needs `n + 1 - i` passes and one more test, and multiplies `n + 1 - i` times. -/
theorem Test.powernLoop_eq {α : Type} (mul : α → α → α) (d : α) (n : Nat)
    (hn : n + 1 < UINT_RANGE) (fuel i : Nat) (x : α) (hi : i ≤ n + 1) :
    Test.powernLoop mul d n fuel i x
      = if n + 1 - i < fuel then some ((fun y => mul y d)^[n + 1 - i] x) else none := by
  induction fuel generalizing i x with
  | zero => simp [Test.powernLoop]
  | succ fuel ih =>
    by_cases hle : i ≤ n
    · have hmod : (i + 1) % UINT_RANGE = i + 1 := Nat.mod_eq_of_lt (by omega)
      have hsub : n + 1 - i = (n + 1 - (i + 1)) + 1 := by omega
      simp only [Test.powernLoop, if_pos hle, hmod]
      rw [ih (i + 1) (mul x d) (by omega), hsub, Function.iterate_succ_apply]
      by_cases hf : n + 1 - (i + 1) < fuel
      · rw [if_pos hf, if_pos (by omega)]
      · rw [if_neg hf, if_neg (by omega)]
    · have hsub : n + 1 - i = 0 := by omega
      simp only [Test.powernLoop, if_neg hle, hsub, Function.iterate_zero, id_eq]
      rw [if_pos (Nat.succ_pos _)]

/-- The loop of `powern` for `n = UINT_MAX`: the test `i <= n` never fails. -/
theorem Test.powernLoop_max {α : Type} (mul : α → α → α) (d : α) (fuel i : Nat) (x : α)
    (hi : i < UINT_RANGE) :
    Test.powernLoop mul d (UINT_RANGE - 1) fuel i x = none := by
  induction fuel generalizing i x with
  | zero => rfl
  | succ fuel ih =>
    have hle : i ≤ UINT_RANGE - 1 := by omega
    simp only [Test.powernLoop, if_pos hle]
    exact ih _ _ (Nat.mod_lt _ (by decide))

/-! ## The output of the drivers -/

theorem toUnsigned_natCast (a : Nat) (h : a < UINT_RANGE) : toUnsigned (a : Int) = a := by
  unfold toUnsigned
  simp only [UINT_RANGE] at h
  rw [Int.emod_eq_of_lt (Int.ofNat_nonneg a) (by omega)]
  exact Int.toNat_ofNat a

/-- The line printed for a nonnegative `k` and a count below `2^31`. -/
theorem printfLine_natCast (a n : Nat) (hn : n < 2147483648) :
    printfLine (a : Int) n = toString a ++ "\tn = " ++ toString n ++ "\n" := by
  have h1 : n % UINT_RANGE = n := Nat.mod_eq_of_lt (by simp only [UINT_RANGE]; omega)
  simp only [printfLine, asInt, h1, if_pos hn]
  rfl

set_option maxRecDepth 100000 in
/-- Variant B returns within `143` loop tests on every `2 ≤ k < 500`. -/
theorem Collatz2.stepn_isSome_below_500 :
    ∀ k, k < 500 → 2 ≤ k → (Collatz2.stepn 143 k).isSome = true := by decide

/-- The counts of the starting values below `500`: at most `143`, returned by
Variant A with any fuel from `143` on, and by Variant B as well from `k = 2` on. -/
theorem counts_below_500 (k : Nat) (hk : k < 500) (fuel : Nat) (hf : 143 ≤ fuel) :
    (Collatz.stepn 143 k).getD 0 ≤ 143 ∧
    Collatz.stepn fuel k = some ((Collatz.stepn 143 k).getD 0) ∧
    (2 ≤ k → Collatz2.stepn fuel k = some ((Collatz.stepn 143 k).getD 0)) := by
  have hx : k < UINT_RANGE := by
    simp only [UINT_RANGE]
    omega
  by_cases h2 : 2 ≤ k
  · obtain ⟨n, hn⟩ := Option.isSome_iff_exists.mp (Collatz2.stepn_isSome_below_500 k hk h2)
    have hle : n ≤ 143 := ((Collatz2.stepnB_eq_some_iff 143 k n hx).mp hn).1
    have hA : Collatz.stepn 143 k = some n := Collatz.stepn_of_stepnB 143 k n h2 hx hn
    have hBf : Collatz2.stepn fuel k = some n := by
      rw [Collatz2.stepnB_fuel k n 143 hx hn fuel, if_pos (le_trans hle hf)]
    rw [hA, Option.getD_some]
    exact ⟨hle, Collatz.stepn_of_stepnB fuel k n h2 hx hBf, fun _ => hBf⟩
  · have h01 : k = 0 ∨ k = 1 := by omega
    have hA : ∀ f, Collatz.stepn f k = some 1 := by
      intro f
      rw [Collatz.stepn, if_pos h01]
    rw [hA 143, hA fuel, Option.getD_some]
    exact ⟨by omega, rfl, fun h => absurd h h2⟩

/-- The loop of Variant A's driver, entered at `k = a` with `m` starting values
left: it writes their `m` lines and `main` returns. -/
theorem Collatz.mainLoop_eq (fuel : Nat) (g : Nat → Nat)
    (hg : ∀ k, k < 500 → Collatz.stepn fuel k = some (g k)) (m : Nat) :
    ∀ a outer, a + m = 500 → m < outer →
      Collatz.mainLoop fuel outer (a : Int)
        = ((List.range' a m).map (fun k : Nat => printfLine (k : Int) (g k)), true) := by
  induction m with
  | zero =>
    intro a outer ha ho
    obtain ⟨o, rfl⟩ : ∃ o, outer = o + 1 := ⟨outer - 1, by omega⟩
    have hge : ¬ ((a : Int) < 500) := by omega
    simp only [Collatz.mainLoop, if_neg hge]
    rfl
  | succ m ih =>
    intro a outer ha ho
    obtain ⟨o, rfl⟩ : ∃ o, outer = o + 1 := ⟨outer - 1, by omega⟩
    have hlt : (a : Int) < 500 := by omega
    have hu : toUnsigned (a : Int) = a :=
      toUnsigned_natCast a (by simp only [UINT_RANGE]; omega)
    have hrest := ih (a + 1) o (by omega) (by omega)
    rw [Nat.cast_add, Nat.cast_one] at hrest
    simp only [Collatz.mainLoop, if_pos hlt, hu, hg a (by omega), hrest, List.range'_succ,
      List.map_cons]

/-- The loop of Variant B's driver, entered at `k = a`: with fuel for `m` tests
its output starts with the lines of the next `m` starting values. -/
theorem Collatz2.mainLoop_prefix (fuel : Nat) (g : Nat → Nat) (m : Nat) :
    ∀ a outer, a + m ≤ 5000000 → m ≤ outer →
      (∀ k, a ≤ k → k < a + m → Collatz2.stepn fuel k = some (g k)) →
      ∃ rest, (Collatz2.mainLoop fuel outer (a : Int)).1
        = (List.range' a m).map (fun k : Nat => printfLine (k : Int) (g k)) ++ rest := by
  induction m with
  | zero =>
    intro a outer _ _ _
    exact ⟨_, rfl⟩
  | succ m ih =>
    intro a outer ha ho hg
    obtain ⟨o, rfl⟩ : ∃ o, outer = o + 1 := ⟨outer - 1, by omega⟩
    have hlt : (a : Int) < 5000000 := by omega
    have hu : toUnsigned (a : Int) = a :=
      toUnsigned_natCast a (by simp only [UINT_RANGE]; omega)
    obtain ⟨rest, hrest⟩ := ih (a + 1) o (by omega) (by omega)
      (fun k hk1 hk2 => hg k (by omega) (by omega))
    rw [Nat.cast_add, Nat.cast_one] at hrest
    refine ⟨rest, ?_⟩
    simp only [Collatz2.mainLoop, if_pos hlt, hu, hg a (le_refl a) (by omega), hrest,
      List.range'_succ, List.map_cons, List.cons_append]

/-- The whole output of Variant A's driver, for enough fuel. -/
theorem Collatz.main_eq (fuel outer : Nat) (hf : 143 ≤ fuel) (ho : 500 < outer) :
    Collatz.main fuel outer
      = ((List.range' 0 500).map
          (fun k : Nat => printfLine (k : Int) ((Collatz.stepn 143 k).getD 0)), true) :=
  Collatz.mainLoop_eq fuel (fun k => (Collatz.stepn 143 k).getD 0)
    (fun k hk => (counts_below_500 k hk fuel hf).2.1) 500 0 outer rfl ho

/-! ## Claims -/

/-- C1: for every unsigned 32-bit `x`, `step x` is `x / 2` when `x` is even and
`(3 * x + 1) mod 2^32` when `x` is odd; the result is again an unsigned 32-bit
value (the function is total), and `collatz2.c` defines the same function. -/
theorem step_contract (x : Nat) (hx : x < 2 ^ 32) :
    (x % 2 = 0 → Collatz.step x = x / 2) ∧
    (x % 2 = 1 → Collatz.step x = (3 * x + 1) % 2 ^ 32) ∧
    Collatz.step x < 2 ^ 32 ∧
    Collatz2.step x = Collatz.step x := by
  refine ⟨Collatz.step_even x, ?_, ?_, rfl⟩
  · intro h
    rw [Collatz.step_odd x h]
    rfl
  · exact Collatz.step_lt x hx

/-- Witness for C1 at `x = 1431655765`, an odd input where `3 * x + 1` wraps. -/
theorem step_contract_witness :
    (1431655765 < 2 ^ 32) ∧
    ((1431655765 % 2 = 0 → Collatz.step 1431655765 = 1431655765 / 2) ∧
    (1431655765 % 2 = 1 → Collatz.step 1431655765 = (3 * 1431655765 + 1) % 2 ^ 32) ∧
    Collatz.step 1431655765 < 2 ^ 32 ∧
    Collatz2.step 1431655765 = Collatz.step 1431655765) :=
  ⟨by decide, step_contract 1431655765 (by decide)⟩

/-- C2: Variant B (`collatz2.c`), for every unsigned 32-bit `x0`: `stepn` returns
`n` within the given fuel exactly when `n` loop tests fit in the fuel, `n ≥ 1`,
`step^n(x0) = 1` and `step^j(x0) ≠ 1` for every `1 ≤ j < n`.  So whenever `stepn`
terminates, its result, read as a natural number (the counter did not wrap), is
the number of applications of `step` needed to reach `1` for the first time. -/
theorem stepn_B_first_reach_one (fuel x0 n : Nat) (hx : x0 < 2 ^ 32) :
    Collatz2.stepn fuel x0 = some n ↔
      n ≤ fuel ∧ 1 ≤ n ∧ Collatz2.step^[n] x0 = 1 ∧
        ∀ j, 1 ≤ j → j < n → Collatz2.step^[j] x0 ≠ 1 :=
  Collatz2.stepnB_eq_some_iff fuel x0 n hx

/-- Witness for C2 at `x0 = 6`, `n = 8`. -/
theorem stepn_B_first_reach_one_witness :
    (6 < 2 ^ 32) ∧ Collatz2.stepn 8 6 = some 8 ∧
    (8 ≤ 8 ∧ 1 ≤ 8 ∧ Collatz2.step^[8] 6 = 1 ∧
      ∀ j, 1 ≤ j → j < 8 → Collatz2.step^[j] 6 ≠ 1) :=
  ⟨by decide, by decide, (stepn_B_first_reach_one 8 6 8 (by decide)).mp (by decide)⟩

/-- C3: Variant A (`collatz.c`), for every unsigned 32-bit `x0 ≥ 2`: `stepn`
returns `n` within the given fuel exactly when `n` loop tests fit in the fuel
and `n` is the least `n ≥ 1` with `step^n(x0)` equal to `1` or `0`.  So whenever
`stepn` terminates, its result, read as a natural number, counts every
application of `step`, the first one included, exactly once: the instrumented
run returns the same `n` and has called `step` exactly `n` times. -/
theorem stepn_A_first_reach_one_or_zero (fuel x0 n : Nat) (h2 : 2 ≤ x0) (hx : x0 < 2 ^ 32) :
    (Collatz.stepn fuel x0 = some n ↔
      n ≤ fuel ∧ 1 ≤ n ∧ (Collatz.step^[n] x0 = 1 ∨ Collatz.step^[n] x0 = 0) ∧
        ∀ j, 1 ≤ j → j < n → ¬ (Collatz.step^[j] x0 = 1 ∨ Collatz.step^[j] x0 = 0)) ∧
    (Collatz.stepn fuel x0 = some n → Collatz.stepnCalls fuel x0 = some (n, n)) :=
  ⟨Collatz.stepn_eq_some_iff fuel x0 n h2 hx, Collatz.stepnCalls_of_stepn fuel x0 n h2 hx⟩

/-- Witness for C3 at `x0 = 6`, `n = 8`: eight calls of `step`, result `8`. -/
theorem stepn_A_first_reach_one_or_zero_witness :
    (2 ≤ 6) ∧ (6 < 2 ^ 32) ∧ Collatz.stepn 8 6 = some 8 ∧
    (8 ≤ 8 ∧ 1 ≤ 8 ∧ (Collatz.step^[8] 6 = 1 ∨ Collatz.step^[8] 6 = 0) ∧
      ∀ j, 1 ≤ j → j < 8 → ¬ (Collatz.step^[j] 6 = 1 ∨ Collatz.step^[j] 6 = 0)) ∧
    Collatz.stepnCalls 8 6 = some (8, 8) :=
  ⟨by decide, by decide, by decide,
    (stepn_A_first_reach_one_or_zero 8 6 8 (by decide) (by decide)).1.mp (by decide),
    (stepn_A_first_reach_one_or_zero 8 6 8 (by decide) (by decide)).2 (by decide)⟩

/-- C4, counterexample: `x0 = 1431655765` is an unsigned 32-bit value `≥ 2` on
which Variant A terminates (it returns `1`, because `3 * x0 + 1` wraps to `0`)
whereas Variant B does not terminate. -/
theorem stepn_variants_differ_at_1431655765 :
    2 ≤ 1431655765 ∧ 1431655765 < 2 ^ 32 ∧
    (∀ fuel, 1 ≤ fuel → Collatz.stepn fuel 1431655765 = some 1) ∧
    (∀ fuel, Collatz2.stepn fuel 1431655765 = none) := by
  refine ⟨by decide, by decide, ?_, ?_⟩
  · intro fuel hfuel
    rw [Collatz.stepn_fuel 1431655765 1 1 (by decide) (by decide) (by decide) fuel, if_pos hfuel]
  · intro fuel
    have hs : Collatz2.step 1431655765 = 0 := by decide
    rw [Collatz2.stepn, hs, Collatz2.stepnLoop_zero]

/-- C4, amended: for every unsigned 32-bit `x0 ≥ 2` whose trajectory under `step`
never reaches `0`, the two variants agree for every fuel (each terminates
exactly when the other does, with the same result); and when the trajectory
does reach `0`, Variant A terminates whereas Variant B never does. -/
theorem stepn_variants_agree (x0 : Nat) (h2 : 2 ≤ x0) (hx : x0 < 2 ^ 32) :
    ((∀ j, Collatz.step^[j] x0 ≠ 0) →
      ∀ fuel, Collatz.stepn fuel x0 = Collatz2.stepn fuel x0) ∧
    ((∃ j, Collatz.step^[j] x0 = 0) →
      (∃ fuel n, Collatz.stepn fuel x0 = some n) ∧
        ∀ fuel, Collatz2.stepn fuel x0 = none) := by
  constructor
  · intro hnz fuel
    apply Option.ext
    intro n
    simp only [Option.mem_def]
    rw [Collatz.stepn_eq_some_iff fuel x0 n h2 hx, Collatz2.stepnB_eq_some_iff fuel x0 n hx]
    constructor
    · rintro ⟨hf, hn, hstop, hbefore⟩
      refine ⟨hf, hn, ?_, ?_⟩
      · rcases hstop with h | h
        · exact h
        · exact absurd h (hnz n)
      · intro j hj1 hjn h1
        exact hbefore j hj1 hjn (Or.inl h1)
    · rintro ⟨hf, hn, hstop, hbefore⟩
      refine ⟨hf, hn, Or.inl hstop, ?_⟩
      intro j hj1 hjn h
      rcases h with h | h
      · exact hbefore j hj1 hjn h
      · exact hnz j h
  · rintro ⟨j, hj⟩
    have hB : ∀ fuel, Collatz2.stepn fuel x0 = none := by
      intro fuel
      rw [Option.eq_none_iff_forall_not_mem]
      intro m hm
      obtain ⟨_, _, hstop, _⟩ := (Collatz2.stepnB_eq_some_iff fuel x0 m hx).mp hm
      exact Collatz.iterate_step_ne_zero x0 m hstop j hj
    refine ⟨?_, hB⟩
    have hj1 : 1 ≤ j := by
      rcases Nat.eq_zero_or_pos j with h | h
      · subst h
        simp only [Function.iterate_zero, id_eq] at hj
        omega
      · exact h
    have hex : ∃ m, 1 ≤ m ∧ (Collatz.step^[m] x0 = 1 ∨ Collatz.step^[m] x0 = 0) :=
      ⟨j, hj1, Or.inr hj⟩
    refine ⟨Nat.find hex, Nat.find hex, ?_⟩
    rw [Collatz.stepn_eq_some_iff _ x0 _ h2 hx]
    refine ⟨le_refl _, (Nat.find_spec hex).1, (Nat.find_spec hex).2, ?_⟩
    intro i hi1 hilt h
    exact Nat.find_min hex hilt ⟨hi1, h⟩

/-- Witness for C4: the agreement at `x0 = 6`, whose trajectory never reaches
`0`, and the disagreement at `x0 = 1431655765`, whose trajectory does. -/
theorem stepn_variants_agree_witness :
    (2 ≤ 6 ∧ 6 < 2 ^ 32 ∧ (∀ j, Collatz.step^[j] 6 ≠ 0) ∧
      ∀ fuel, Collatz.stepn fuel 6 = Collatz2.stepn fuel 6) ∧
    (2 ≤ 1431655765 ∧ 1431655765 < 2 ^ 32 ∧ (∃ j, Collatz.step^[j] 1431655765 = 0) ∧
      (∃ fuel n, Collatz.stepn fuel 1431655765 = some n) ∧
        ∀ fuel, Collatz2.stepn fuel 1431655765 = none) :=
  ⟨⟨by decide, by decide, Collatz.iterate_step_ne_zero 6 8 (by decide),
      (stepn_variants_agree 6 (by decide) (by decide)).1
        (Collatz.iterate_step_ne_zero 6 8 (by decide))⟩,
    ⟨by decide, by decide, ⟨1, by decide⟩,
      (stepn_variants_agree 1431655765 (by decide) (by decide)).2 ⟨1, by decide⟩⟩⟩

/-- C5: Variant A (`collatz.c`): `stepn(0) = 1` and `stepn(1) = 1`, whatever the
fuel (the loop is not reached), and the instrumented function reports `0` calls
of `step` for both inputs. -/
theorem stepn_A_zero_one (fuel : Nat) :
    Collatz.stepn fuel 0 = some 1 ∧ Collatz.stepn fuel 1 = some 1 ∧
    Collatz.stepnCalls fuel 0 = some (1, 0) ∧ Collatz.stepnCalls fuel 1 = some (1, 0) :=
  ⟨rfl, rfl, rfl, rfl⟩

/-- C6: Variant B (`collatz2.c`): starting from `x0 = 0` the loop variable is `0`
after every application of `step`, and for every fuel bound the fuel-bounded
`stepn(0)` fails to return. -/
theorem stepn_B_zero_diverges :
    (∀ j, Collatz2.step^[j] 0 = 0) ∧ (∀ fuel, Collatz2.stepn fuel 0 = none) := by
  refine ⟨Collatz.iterate_step_zero, ?_⟩
  intro fuel
  have hs : Collatz2.step 0 = 0 := by decide
  rw [Collatz2.stepn, hs, Collatz2.stepnLoop_zero]

set_option maxRecDepth 100000 in
/-- C7, counterexample: Variant A's `stepn(27)` is not `112` for any fuel. -/
theorem stepn_A_27_ne_112 : ¬ ∃ fuel, Collatz.stepn fuel 27 = some 112 := by
  rintro ⟨fuel, h⟩
  rw [Collatz.stepn_fuel 27 111 111 (by decide) (by decide) (by decide) fuel] at h
  split at h <;> simp at h

set_option maxRecDepth 100000 in
/-- C7, amended: Variant A's `stepn(27)` is `111`: with fuel for at least `111`
loop tests it returns `111`, with less it does not return. -/
theorem stepn_A_27 (fuel : Nat) :
    Collatz.stepn fuel 27 = if 111 ≤ fuel then some 111 else none :=
  Collatz.stepn_fuel 27 111 111 (by decide) (by decide) (by decide) fuel

/-- C8, counterexample: Variant A's `stepn(6)` is not `9` for any fuel. -/
theorem stepn_A_6_ne_9 : ¬ ∃ fuel, Collatz.stepn fuel 6 = some 9 := by
  rintro ⟨fuel, h⟩
  rw [Collatz.stepn_fuel 6 8 8 (by decide) (by decide) (by decide) fuel] at h
  split at h <;> simp at h

/-- C8, amended: Variant A's `stepn(6)` is `8`; the trajectory is
`6, 3, 10, 5, 16, 8, 4, 2, 1`, which is `8` applications of `step`: the counter
starts at `1` for the application before the loop and is incremented `7` times
in the loop. -/
theorem stepn_A_6 :
    (∀ fuel, Collatz.stepn fuel 6 = if 8 ≤ fuel then some 8 else none) ∧
    (List.range 9).map (fun j => Collatz.step^[j] 6) = [6, 3, 10, 5, 16, 8, 4, 2, 1] ∧
    Collatz.stepnCalls 8 6 = some (8, 1 + 7) :=
  ⟨Collatz.stepn_fuel 6 8 8 (by decide) (by decide) (by decide), by decide, by decide⟩

/-- C9, counterexample: Variant A's `stepn(2)` is not `2` for any fuel. -/
theorem stepn_A_2_ne_2 : ¬ ∃ fuel, Collatz.stepn fuel 2 = some 2 := by
  rintro ⟨fuel, h⟩
  rw [Collatz.stepn_fuel 2 1 1 (by decide) (by decide) (by decide) fuel] at h
  split at h <;> simp at h

/-- C9, amended: Variant A's `stepn(2)` is `1` (`2 → 1` is one application of
`step`; the loop body is not entered). -/
theorem stepn_A_2 :
    (∀ fuel, Collatz.stepn fuel 2 = if 1 ≤ fuel then some 1 else none) ∧
    Collatz.step 2 = 1 ∧ Collatz.stepnCalls 1 2 = some (1, 1) :=
  ⟨Collatz.stepn_fuel 2 1 1 (by decide) (by decide) (by decide), by decide, by decide⟩

/-- C10: the variants diverge at `x0 = 1`: Variant A's `stepn(1)` returns `1`,
Variant B's `stepn(1)` terminates and returns `3` (`1 → 4 → 2 → 1`), and the line
that Variant B's driver prints for index `1` is the hardcoded one with the
value `1`, not the line with the value `3` that `stepn(1)` would give. -/
theorem stepn_variants_differ_at_one :
    (∀ fuel, Collatz.stepn fuel 1 = some 1) ∧
    (∀ fuel, Collatz2.stepn fuel 1 = if 3 ≤ fuel then some 3 else none) ∧
    (List.range 4).map (fun j => Collatz2.step^[j] 1) = [1, 4, 2, 1] ∧
    Collatz2.mainHardcoded[1]? = some (printfLine 1 1) ∧
    printfLine 1 1 = "1\tn = 1\n" ∧
    printfLine 1 3 = "1\tn = 3\n" ∧
    printfLine 1 3 ≠ printfLine 1 1 :=
  ⟨fun _ => rfl, Collatz2.stepnB_fuel 1 3 3 (by decide) (by decide),
    by decide, by decide, by decide, by decide, by decide⟩

/-- C12: for every unsigned 32-bit `x` other than `0`, neither one nor two
applications of `step` return to `x`, wraparound of `3 * x + 1` included.  (This
holds for every nonzero `x`, so in particular outside the cycle `1, 2, 4`, whose
period is three.) -/
theorem step_no_short_cycle (x : Nat) (hx : x < 2 ^ 32) (h0 : x ≠ 0) :
    Collatz.step (Collatz.step x) ≠ x ∧ Collatz.step x ≠ x := by
  have hx' : x < 4294967296 := hx
  simp only [Collatz.step, UINT_RANGE]
  constructor
  · split_ifs <;> omega
  · split_ifs <;> omega

/-- Witness for C12 at `x = 1431655765`, where `3 * x + 1` wraps to `0`. -/
theorem step_no_short_cycle_witness :
    1431655765 < 2 ^ 32 ∧ 1431655765 ≠ 0 ∧
    Collatz.step (Collatz.step 1431655765) ≠ 1431655765 ∧
    Collatz.step 1431655765 ≠ 1431655765 :=
  ⟨by decide, by decide, step_no_short_cycle 1431655765 (by decide) (by decide)⟩

/-- C13: for every unsigned 32-bit `x0 ≥ 2`, if Variant B's `stepn` returns `n`
then Variant A's `stepn` returns the same `n` with the same fuel, and the
trajectory of `x0` never passes through `0`. -/
theorem stepn_B_refines_A (fuel x0 n : Nat) (h2 : 2 ≤ x0) (hx : x0 < 2 ^ 32)
    (h : Collatz2.stepn fuel x0 = some n) :
    Collatz.stepn fuel x0 = some n ∧ ∀ j, Collatz.step^[j] x0 ≠ 0 :=
  ⟨Collatz.stepn_of_stepnB fuel x0 n h2 hx h,
    Collatz.iterate_step_ne_zero x0 n
      ((Collatz2.stepnB_eq_some_iff fuel x0 n hx).mp h).2.2.1⟩

set_option maxRecDepth 100000 in
/-- Witness for C13 at `x0 = 27`, `n = 111`. -/
theorem stepn_B_refines_A_witness :
    2 ≤ 27 ∧ 27 < 2 ^ 32 ∧ Collatz2.stepn 111 27 = some 111 ∧
    Collatz.stepn 111 27 = some 111 ∧ ∀ j, Collatz.step^[j] 27 ≠ 0 :=
  ⟨by decide, by decide, by decide,
    stepn_B_refines_A 111 27 111 (by decide) (by decide) (by decide)⟩

/-- C14: with 32-bit `unsigned int`, `step x = 0` exactly when `x = 0` or
`x = 1431655765 = (2^32 - 1) / 3`, where `3 * x + 1 = 2^32` wraps to `0`.  So when
Variant A on `x0 ≥ 2` leaves its loop at `0`, the value before the last
application of `step` was `1431655765`; for instance `stepn(1431655765)` returns
`1`. -/
theorem step_eq_zero_iff (x : Nat) (hx : x < 2 ^ 32) :
    (Collatz.step x = 0 ↔ x = 0 ∨ x = 1431655765) ∧
    1431655765 = (2 ^ 32 - 1) / 3 ∧ 3 * 1431655765 + 1 = 2 ^ 32 ∧
    (∀ fuel x0 n, 2 ≤ x0 → x0 < 2 ^ 32 → Collatz.stepn fuel x0 = some n →
      Collatz.step^[n] x0 = 0 → Collatz.step^[n - 1] x0 = 1431655765) ∧
    (∀ fuel, Collatz.stepn fuel 1431655765 = if 1 ≤ fuel then some 1 else none) := by
  have hzero := Collatz.step_eq_zero_cases
  refine ⟨hzero x hx, by decide, by decide, ?_,
    Collatz.stepn_fuel 1431655765 1 1 (by decide) (by decide) (by decide)⟩
  intro fuel x0 n h2 hx0 hret hz
  obtain ⟨_, hn1, _, hbefore⟩ := (Collatz.stepn_eq_some_iff fuel x0 n h2 hx0).mp hret
  obtain ⟨k, rfl⟩ := Nat.exists_eq_succ_of_ne_zero (Nat.pos_iff_ne_zero.mp hn1)
  rw [Function.iterate_succ_apply'] at hz
  have hk : Collatz.step^[k] x0 ≠ 0 := by
    rcases Nat.eq_zero_or_pos k with h | h
    · subst h
      simp only [Function.iterate_zero, id_eq]
      omega
    · intro h0
      exact hbefore k h (Nat.lt_succ_self k) (Or.inr h0)
  rcases (hzero _ (Collatz.iterate_step_lt x0 hx0 k)).mp hz with h | h
  · exact absurd h hk
  · simpa using h

/-- Witness for C14 at `x = 1431655765`. -/
theorem step_eq_zero_iff_witness :
    1431655765 < 2 ^ 32 ∧ Collatz.step 1431655765 = 0 :=
  ⟨by decide, (step_eq_zero_iff 1431655765 (by decide)).1.mpr (Or.inr rfl)⟩

/-- C15: agreement with the mathematical Collatz map.  For every `x0 ≥ 2` whose
trajectory under the unbounded map reaches `1` for the first time after `n ≥ 1`
applications, with every term up to there below `2^32`, both variants of `stepn`
terminate (fuel for `n` loop tests is enough, less is not) and return exactly
`n`. -/
theorem stepn_eq_total_stopping_time (x0 n : Nat) (h2 : 2 ≤ x0) (hn : 1 ≤ n)
    (hreach : collatzMap^[n] x0 = 1)
    (hfirst : ∀ j, 1 ≤ j → j < n → collatzMap^[j] x0 ≠ 1)
    (hbound : ∀ j, j ≤ n → collatzMap^[j] x0 < 2 ^ 32) (fuel : Nat) :
    Collatz.stepn fuel x0 = (if n ≤ fuel then some n else none) ∧
    Collatz2.stepn fuel x0 = (if n ≤ fuel then some n else none) := by
  have hx : x0 < UINT_RANGE := hbound 0 (Nat.zero_le n)
  have hagree := Collatz.iterate_step_eq_collatzMap x0 n hbound
  have hB : Collatz2.stepn n x0 = some n := by
    rw [Collatz2.stepnB_eq_some_iff n x0 n hx]
    refine ⟨le_refl n, hn, ?_, ?_⟩
    · rw [hagree n (le_refl n)]
      exact hreach
    · intro j hj1 hjn
      rw [hagree j (Nat.le_of_lt hjn)]
      exact hfirst j hj1 hjn
  exact ⟨Collatz.stepn_fuel x0 n n h2 hx (Collatz.stepn_of_stepnB n x0 n h2 hx hB) fuel,
    Collatz2.stepnB_fuel x0 n n hx hB fuel⟩

set_option maxRecDepth 100000 in
/-- Witness for C15 at `x0 = 27`: its total stopping time is `111`, every term
of the trajectory is below `2^32`, and both variants return `111`. -/
theorem stepn_eq_total_stopping_time_witness :
    (2 ≤ 27 ∧ 1 ≤ 111 ∧ collatzMap^[111] 27 = 1 ∧
      (∀ j, 1 ≤ j → j < 111 → collatzMap^[j] 27 ≠ 1) ∧
      (∀ j, j ≤ 111 → collatzMap^[j] 27 < 2 ^ 32)) ∧
    Collatz.stepn 111 27 = some 111 ∧ Collatz2.stepn 111 27 = some 111 :=
  have hfirst : ∀ j, 1 ≤ j → j < 111 → collatzMap^[j] 27 ≠ 1 := by
    have h : ∀ j, j < 111 → 1 ≤ j → collatzMap^[j] 27 ≠ 1 := by decide
    exact fun j h1 hj => h j hj h1
  have hbound : ∀ j, j ≤ 111 → collatzMap^[j] 27 < 2 ^ 32 := by
    have h : ∀ j, j < 112 → collatzMap^[j] 27 < 2 ^ 32 := by decide
    exact fun j hj => h j (Nat.lt_succ_of_le hj)
  ⟨⟨by decide, by decide, by decide, hfirst, hbound⟩,
    stepn_eq_total_stopping_time 27 111 (by decide) (by decide) (by decide) hfirst hbound 111⟩

/-- C17: `powern(d, n)` of `test.c`, for every unsigned 32-bit `n < 2^32 - 1`:
the loop is left after exactly `n` passes (`n + 1` tests of `i <= n`), and the
result is the initial `1.0` multiplied `n` times by `d`, so `powern(d, 0)` is the
initial value unchanged.  Every `n = i % 5` that `main` passes is in that range.
For `n = 2^32 - 1` the loop is never left, whatever the fuel. -/
theorem powern_iterations {α : Type} (mul : α → α → α) (one d : α) (n fuel : Nat)
    (hn : n < 2 ^ 32 - 1) :
    Test.powern mul one fuel d n
      = (if n < fuel then some ((fun x => mul x d)^[n] one) else none) ∧
    Test.powern mul one (fuel + 1) d 0 = some one ∧
    (∀ i : Nat, i % 5 < 2 ^ 32 - 1) ∧
    (∀ fuel, Test.powern mul one fuel d (2 ^ 32 - 1) = none) := by
  have hn' : n + 1 < UINT_RANGE := by
    simp only [UINT_RANGE]
    omega
  refine ⟨?_, ?_, ?_, ?_⟩
  · have h := Test.powernLoop_eq mul d n hn' fuel 1 one (by omega)
    simpa [Test.powern] using h
  · have h := Test.powernLoop_eq mul d 0 (by decide) (fuel + 1) 1 one (by omega)
    simpa [Test.powern] using h
  · intro i
    omega
  · intro fuel
    exact Test.powernLoop_max mul d fuel 1 one (by decide)

/-- Witness for C17 with the natural numbers in place of `double`: `powern(2, 4)`
with fuel for five loop tests is `16`. -/
theorem powern_iterations_witness :
    4 < 2 ^ 32 - 1 ∧ Test.powern (fun a b : Nat => a * b) 1 5 2 4 = some 16 :=
  ⟨by decide, (powern_iterations (fun a b : Nat => a * b) 1 2 4 5 (by decide)).1⟩

/-- C11: Variant A's driver (`main` of `collatz.c`), given fuel for `143` loop
tests in every call of `stepn` and for `501` tests of its own loop, returns and
has written exactly `500` lines; for every `k` in `0..499`, `stepn(k)` returns
some `n` and line `k` is the decimal rendering of `k`, a tab, the text `n = `,
the decimal rendering of `n` and a newline. -/
theorem main_A_output (fuel outer : Nat) (hf : 143 ≤ fuel) (ho : 500 < outer) :
    (Collatz.main fuel outer).2 = true ∧
    (Collatz.main fuel outer).1.length = 500 ∧
    ∀ k, k < 500 → ∃ n, Collatz.stepn fuel k = some n ∧
      (Collatz.main fuel outer).1[k]? = some (toString k ++ "\tn = " ++ toString n ++ "\n") := by
  rw [Collatz.main_eq fuel outer hf ho]
  refine ⟨rfl, by simp, ?_⟩
  intro k hk
  obtain ⟨hle, hA, _⟩ := counts_below_500 k hk fuel hf
  refine ⟨_, hA, ?_⟩
  rw [List.getElem?_map, List.getElem?_range' 0 1 hk, Option.map_some',
    Nat.zero_add, Nat.one_mul]
  rw [printfLine_natCast k _ (by omega)]

/-- Witness for C11 with fuel `143` and `501`: the run returns, with `500`
lines, and line `27` is the one for the count `111`. -/
theorem main_A_output_witness :
    (143 ≤ 143 ∧ 500 < 501) ∧
    (Collatz.main 143 501).2 = true ∧
    (Collatz.main 143 501).1.length = 500 ∧
    ∀ k, k < 500 → ∃ n, Collatz.stepn 143 k = some n ∧
      (Collatz.main 143 501).1[k]? = some (toString k ++ "\tn = " ++ toString n ++ "\n") :=
  ⟨⟨by decide, by decide⟩, main_A_output 143 501 (by decide) (by decide)⟩

/-- C16: the two drivers print the same thing on their common range.  Given
fuel for `143` loop tests in every call of `stepn`, for `501` tests of Variant A's
loop and for at least `498` tests of Variant B's loop, Variant A's driver returns
and the first `500` lines written by `collatz2.c` (two hardcoded lines, then
`k = 2..499` through Variant B's `stepn`) are exactly the complete output of
`collatz.c`. -/
theorem drivers_agree_on_first_500 (fuelA outerA fuelB outerB : Nat)
    (hfA : 143 ≤ fuelA) (hoA : 500 < outerA) (hfB : 143 ≤ fuelB) (hoB : 498 ≤ outerB) :
    (Collatz.main fuelA outerA).2 = true ∧
    (Collatz.main fuelA outerA).1.length = 500 ∧
    (Collatz2.main fuelB outerB).1.take 500 = (Collatz.main fuelA outerA).1 := by
  rw [Collatz.main_eq fuelA outerA hfA hoA]
  refine ⟨rfl, by simp, ?_⟩
  obtain ⟨rest, hrest⟩ := Collatz2.mainLoop_prefix fuelB
    (fun k => (Collatz.stepn 143 k).getD 0) 498 2 outerB (by decide) hoB
    (fun k hk1 hk2 => (counts_below_500 k (by omega) fuelB hfB).2.2 hk1)
  have hB : (Collatz2.main fuelB outerB).1
      = (Collatz2.mainHardcoded ++ (List.range' 2 498).map
          (fun k : Nat => printfLine (k : Int) ((Collatz.stepn 143 k).getD 0))) ++ rest := by
    rw [List.append_assoc, ← hrest]
    rfl
  have hhead : (List.range' 0 500).map
        (fun k : Nat => printfLine (k : Int) ((Collatz.stepn 143 k).getD 0))
      = Collatz2.mainHardcoded ++ (List.range' 2 498).map
          (fun k : Nat => printfLine (k : Int) ((Collatz.stepn 143 k).getD 0)) := by
    have h0 : printfLine ((0 : Nat) : Int) ((Collatz.stepn 143 0).getD 0) = "0\tn = 1\n" := by
      decide
    have h1 : printfLine ((1 : Nat) : Int) ((Collatz.stepn 143 1).getD 0) = "1\tn = 1\n" := by
      decide
    rw [show (500 : Nat) = 498 + 1 + 1 from rfl, List.range'_succ, List.range'_succ,
      List.map_cons, List.map_cons, h0, h1]
    rfl
  rw [hB, hhead]
  exact List.take_left' (by simp [Collatz2.mainHardcoded])

/-- Witness for C16 with fuel `143` for `stepn`, `501` for Variant A's loop and
`498` for Variant B's loop. -/
theorem drivers_agree_on_first_500_witness :
    (143 ≤ 143 ∧ 500 < 501 ∧ 498 ≤ 498) ∧
    (Collatz.main 143 501).2 = true ∧
    (Collatz.main 143 501).1.length = 500 ∧
    (Collatz2.main 143 498).1.take 500 = (Collatz.main 143 501).1 :=
  ⟨⟨by decide, by decide, by decide⟩,
    drivers_agree_on_first_500 143 501 143 498 (by decide) (by decide) (by decide) (by decide)⟩
